import Mathlib

/-!
# Verification of the `lowpass-filter` crate

A shallow embedding of the first-order IIR lowpass filter in Lean 4.

Modelling conventions:
* Floating-point arithmetic (`f32`/`f64`) is modelled by exact rational
  arithmetic over `ℚ`.  The float constants `core::f32::consts::PI` and
  `core::f64::consts::PI` are embedded by their exact rational values
  (the IEEE-754 values of the constants the source uses).
* A Rust float-to-int `as` cast truncates toward zero and saturates at the
  bounds of the target width; it is modelled by `castToI16` / `castToI32`.
* Code that can panic (the `assert!` in `LowpassFilter::new`, slice and
  `Vec` indexing) is modelled in `Option`: `none` is a panic.
* `debug_assert!` is compiled out in release builds and is not modelled.
-/

namespace Lowpass

/-- Exact rational value of the IEEE-754 single-precision constant
`core::f32::consts::PI` (bit pattern `0x40490FDB`). -/
def f32_pi : ℚ := 13176795 / 4194304

/-- Exact rational value of the IEEE-754 double-precision constant
`core::f64::consts::PI` (bit pattern `0x400921FB54442D18`). -/
def f64_pi : ℚ := 884279719003555 / 281474976710656

/-- Truncation toward zero of a rational, the rounding used by the Rust
float-to-int `as` casts. -/
def truncToInt (x : ℚ) : ℤ :=
  if 0 ≤ x then ⌊x⌋ else ⌈x⌉

/-- Rust `as i16` on a float: truncate toward zero, saturating at the
`i16` bounds. -/
def castToI16 (x : ℚ) : ℤ :=
  max (-32768) (min 32767 (truncToInt x))

/-- Rust `as i32` on a float: truncate toward zero, saturating at the
`i32` bounds. -/
def castToI32 (x : ℚ) : ℤ :=
  max (-2147483648) (min 2147483647 (truncToInt x))

/-- Behaviour of `f32::clamp` / `f64::clamp` on non-NaN inputs:
`x.clamp(lo, hi) = min hi (max lo x)`. -/
def clamp (lo hi x : ℚ) : ℚ :=
  min hi (max lo x)

/-- The coefficient computation shared by every entry point of the crate
(`src/lib.rs` lines 110-112, `src/simple/sp.rs`, `src/simple/dp.rs`):
`rc = 1 / (cutoff_frequency_hz * 2 * pi)`, `dt = 1 / sample_rate_hz`,
`alpha = dt / (rc + dt)`. -/
def mkAlpha (pi sample_rate_hz cutoff_frequency_hz : ℚ) : ℚ :=
  let rc := 1 / (cutoff_frequency_hz * 2 * pi)
  let dt := 1 / sample_rate_hz
  dt / (rc + dt)

/-- State of `LowpassFilter<T>` (`src/lib.rs` lines 91-95).  The macro
`impl_lowpass_filter!` instantiates the same code at `f32` and `f64`,
differing only in the value of the `$pi` constant; the embedding keeps
`pi` as a parameter of the operations instead. -/
structure LowpassFilter where
  alpha : ℚ
  prev : ℚ
  next_is_first : Bool
deriving Repr, DecidableEq

/-- Model of `LowpassFilter::new` (`src/lib.rs` lines 106-119).  The
`assert!(cutoff_frequency_hz * 2.0 <= sample_rate_hz)` panic is modelled
by `none`. -/
def LowpassFilter.new (pi sample_rate_hz cutoff_frequency_hz : ℚ) :
    Option LowpassFilter :=
  if cutoff_frequency_hz * 2 ≤ sample_rate_hz then
    some { alpha := mkAlpha pi sample_rate_hz cutoff_frequency_hz
           prev := 0
           next_is_first := true }
  else
    none

/-- The branch of `LowpassFilter::run` that computes `value` and the new
state (`src/lib.rs` lines 134-141), before the final clamp. -/
def LowpassFilter.step (f : LowpassFilter) (input : ℚ) :
    LowpassFilter × ℚ :=
  if f.next_is_first then
    ({ f with next_is_first := false, prev := input }, input * f.alpha)
  else
    let p := f.prev + f.alpha * (input - f.prev)
    ({ f with prev := p }, p)

/-- Model of `LowpassFilter::run` (`src/lib.rs` lines 127-146): the state update of
`LowpassFilter.step` followed by `value.clamp(-1.0, 1.0)`.  The
`debug_assert!` on the input range is compiled out in release builds. -/
def LowpassFilter.run (f : LowpassFilter) (input : ℚ) :
    LowpassFilter × ℚ :=
  let s := f.step input
  (s.1, clamp (-1) 1 s.2)

/-- Model of `LowpassFilter::reset` (`src/lib.rs` lines 149-152). -/
def LowpassFilter.reset (f : LowpassFilter) : LowpassFilter :=
  { f with prev := 0, next_is_first := true }

/-- Run the filter over a list of samples in order, returning the final
state and the outputs (the loop body shared by `lowpass_filter` and
`lowpass_filter_f64`). -/
def runAll (f : LowpassFilter) : List ℚ → LowpassFilter × List ℚ
  | [] => (f, [])
  | x :: xs =>
    let s := f.run x
    let r := runAll s.1 xs
    (r.1, s.2 :: r.2)

/-- Model of `lowpass_filter` (`src/lib.rs` lines 172-183): construct a fresh
`LowpassFilter<f32>`, then overwrite each sample with `filter.run` of it,
in forward order.  The buffer is modelled as the returned list. -/
def lowpass_filter (sample_iter : List ℚ)
    (sample_rate_hz cutoff_frequency_hz : ℚ) : Option (List ℚ) :=
  (LowpassFilter.new f32_pi sample_rate_hz cutoff_frequency_hz).map
    fun filter => (runAll filter sample_iter).2

/-- Model of `lowpass_filter_f64` (`src/lib.rs` lines 197-208): same as
`lowpass_filter` with the `f64` PI constant. -/
def lowpass_filter_f64 (sample_iter : List ℚ)
    (sample_rate_hz cutoff_frequency_hz : ℚ) : Option (List ℚ) :=
  (LowpassFilter.new f64_pi sample_rate_hz cutoff_frequency_hz).map
    fun filter => (runAll filter sample_iter).2

/-- The loop `for i in 1..data.len()` of the `apply_lpf_*` functions:
`data[i] = cast(data[i-1] as float + alpha * (data[i] as float - data[i-1] as float))`,
where `data[i-1]` is the already-overwritten previous element. -/
def lpfIntLoop (cast : ℚ → ℤ) (alpha : ℚ) : ℤ → List ℤ → List ℤ
  | _, [] => []
  | prev, x :: xs =>
    let y := cast ((prev : ℚ) + alpha * ((x : ℚ) - (prev : ℚ)))
    y :: lpfIntLoop cast alpha y xs

/-- Common shape of the four `apply_lpf_*` functions
(`src/simple/sp.rs`, `src/simple/dp.rs`): compute `alpha`, then
`data[0] = cast(alpha * data[0] as float)` — which panics (`none`) when
the slice is empty — then the recurrence loop over indices `1..len`. -/
def apply_lpf (pi : ℚ) (cast : ℚ → ℤ) (data : List ℤ)
    (sample_rate_hz cutoff_frequency_hz : ℕ) : Option (List ℤ) :=
  match data with
  | [] => none
  | x0 :: rest =>
    let alpha := mkAlpha pi (sample_rate_hz : ℚ) (cutoff_frequency_hz : ℚ)
    let out0 := cast (alpha * (x0 : ℚ))
    some (out0 :: lpfIntLoop cast alpha out0 rest)

/-- Model of `apply_lpf_i16_sp` (`src/simple/sp.rs` lines 11-27): f32 arithmetic,
`i16` samples, `u16` rate and cutoff. -/
def apply_lpf_i16_sp (data : List ℤ)
    (sample_rate_hz cutoff_frequency_hz : ℕ) : Option (List ℤ) :=
  apply_lpf f32_pi castToI16 data sample_rate_hz cutoff_frequency_hz

/-- Model of `apply_lpf_i32_sp` (`src/simple/sp.rs` lines 30-46): f32 arithmetic,
`i32` samples.  (The `i32 as f32` cast can round in Rust; the embedding
idealises it as exact, which no claim here depends on.) -/
def apply_lpf_i32_sp (data : List ℤ)
    (sample_rate_hz cutoff_frequency_hz : ℕ) : Option (List ℤ) :=
  apply_lpf f32_pi castToI32 data sample_rate_hz cutoff_frequency_hz

/-- Model of `apply_lpf_i16_dp` (`src/simple/dp.rs` lines 11-27): f64 arithmetic,
`i16` samples. -/
def apply_lpf_i16_dp (data : List ℤ)
    (sample_rate_hz cutoff_frequency_hz : ℕ) : Option (List ℤ) :=
  apply_lpf f64_pi castToI16 data sample_rate_hz cutoff_frequency_hz

/-- Model of `apply_lpf_i32_dp` (`src/simple/dp.rs` lines 30-46): f64 arithmetic,
`i32` samples. -/
def apply_lpf_i32_dp (data : List ℤ)
    (sample_rate_hz cutoff_frequency_hz : ℕ) : Option (List ℤ) :=
  apply_lpf f64_pi castToI32 data sample_rate_hz cutoff_frequency_hz

/-- Indexed write `v[i] = x` into a `Vec` modelled as a list: panics
(`none`) unless `i < length`. -/
def listSet (l : List ℚ) (i : ℕ) (v : ℚ) : Option (List ℚ) :=
  if i < l.length then some (l.set i v) else none

/-- One iteration of the loop in `FirstOrderLowPassFilterTrait::apply`
(`src/simple/mod.rs` lines 90-97): read `lp_samples[i-1]` and
`samples[i]`, write `lp_samples[i]`; each access panics out of bounds. -/
def traitLoopStep (alpha : ℚ) (samples : List ℚ) (lp : List ℚ) (i : ℕ) :
    Option (List ℚ) := do
  let prev ← lp.get? (i - 1)
  let si ← samples.get? i
  listSet lp i (prev + alpha * (si - prev))

/-- Default method `apply` of `FirstOrderLowPassFilterTrait`
(`src/simple/mod.rs` lines 77-100): `Vec::with_capacity(samples.len())`
produces a vector of length 0; then `lp_samples[0] = alpha * samples[0]`
(reading `samples[0]` panics on empty input, and the write to index 0 of
the empty vector panics otherwise), then the loop over `1..samples.len()`. -/
def traitApply (pi : ℚ) (samples : List ℚ)
    (sampling_rate cutoff_frequency_hz : ℚ) : Option (List ℚ) := do
  let lp_samples : List ℚ := []
  let alpha := mkAlpha pi sampling_rate cutoff_frequency_hz
  let s0 ← samples.get? 0
  let lp ← listSet lp_samples 0 (alpha * s0)
  (List.range' 1 (samples.length - 1)).foldlM (traitLoopStep alpha samples) lp

/-- Filter states reachable from a fresh construction by feeding only
inputs in `[-1, 1]`. -/
def Reachable (pi sr c : ℚ) (f : LowpassFilter) : Prop :=
  ∃ f0 xs, LowpassFilter.new pi sr c = some f0 ∧
    (∀ x ∈ xs, -1 ≤ x ∧ x ≤ 1) ∧ (runAll f0 xs).1 = f

/-! ## Helper lemmas -/

theorem new_some (pi sr c : ℚ) (h : c * 2 ≤ sr) :
    LowpassFilter.new pi sr c =
      some { alpha := mkAlpha pi sr c, prev := 0, next_is_first := true } := by
  simp [LowpassFilter.new, h]

theorem new_eq_some_iff (pi sr c : ℚ) (f : LowpassFilter) :
    LowpassFilter.new pi sr c = some f ↔
      c * 2 ≤ sr ∧
        f = { alpha := mkAlpha pi sr c, prev := 0, next_is_first := true } := by
  unfold LowpassFilter.new
  split
  · simp_all [eq_comm]
  · simp_all

theorem new_eq_none_iff (pi sr c : ℚ) :
    LowpassFilter.new pi sr c = none ↔ sr < c * 2 := by
  unfold LowpassFilter.new
  split
  · simp_all
  · simp_all

theorem mkAlpha_pos (pi sr c : ℚ) (hpi : 0 < pi) (hc : 0 < c)
    (hn : c * 2 ≤ sr) : 0 < mkAlpha pi sr c := by
  have hsr : 0 < sr := by linarith
  have hrc : 0 < 1 / (c * 2 * pi) := by positivity
  have hdt : 0 < 1 / sr := by positivity
  unfold mkAlpha
  positivity

theorem mkAlpha_le_one (pi sr c : ℚ) (hpi : 0 < pi) (hc : 0 < c)
    (hn : c * 2 ≤ sr) : mkAlpha pi sr c ≤ 1 := by
  have hsr : 0 < sr := by linarith
  have hrc : 0 < 1 / (c * 2 * pi) := by positivity
  have hdt : 0 < 1 / sr := by positivity
  unfold mkAlpha
  rw [div_le_one (by positivity)]
  linarith

theorem clamp_le (x : ℚ) : clamp (-1) 1 x ≤ 1 :=
  min_le_left _ _

theorem clamp_ge (x : ℚ) : -1 ≤ clamp (-1) 1 x :=
  le_min (by norm_num) (le_max_left _ _)

theorem clamp_eq_self (x : ℚ) (h1 : -1 ≤ x) (h2 : x ≤ 1) :
    clamp (-1) 1 x = x := by
  unfold clamp
  rw [max_eq_right h1, min_eq_right h2]

theorem step_alpha (f : LowpassFilter) (x : ℚ) :
    ((f.step x).1).alpha = f.alpha := by
  unfold LowpassFilter.step
  split <;> rfl

theorem run_alpha (f : LowpassFilter) (x : ℚ) :
    ((f.run x).1).alpha = f.alpha :=
  step_alpha f x

/-- The pre-clamp value and the new `prev` stay in `[-1, 1]` whenever
`alpha ∈ (0, 1]`, `prev ∈ [-1, 1]` and the input is in `[-1, 1]`. -/
theorem step_bounds (f : LowpassFilter) (x : ℚ)
    (ha0 : 0 < f.alpha) (ha1 : f.alpha ≤ 1)
    (hp0 : -1 ≤ f.prev) (hp1 : f.prev ≤ 1)
    (hx0 : -1 ≤ x) (hx1 : x ≤ 1) :
    (-1 ≤ (f.step x).2 ∧ (f.step x).2 ≤ 1) ∧
      (-1 ≤ ((f.step x).1).prev ∧ ((f.step x).1).prev ≤ 1) := by
  unfold LowpassFilter.step
  split
  · dsimp only
    exact ⟨⟨by nlinarith, by nlinarith⟩, hx0, hx1⟩
  · dsimp only
    exact ⟨⟨by nlinarith, by nlinarith⟩, by nlinarith, by nlinarith⟩

theorem run_state (f : LowpassFilter) (x : ℚ) :
    (f.run x).1 = (f.step x).1 := rfl

theorem run_val (f : LowpassFilter) (x : ℚ) :
    (f.run x).2 = clamp (-1) 1 (f.step x).2 := rfl

theorem run_prev_bounds (f : LowpassFilter) (x : ℚ)
    (ha0 : 0 < f.alpha) (ha1 : f.alpha ≤ 1)
    (hp0 : -1 ≤ f.prev) (hp1 : f.prev ≤ 1)
    (hx0 : -1 ≤ x) (hx1 : x ≤ 1) :
    -1 ≤ ((f.run x).1).prev ∧ ((f.run x).1).prev ≤ 1 := by
  rw [run_state]
  exact (step_bounds f x ha0 ha1 hp0 hp1 hx0 hx1).2

theorem runAll_alpha (xs : List ℚ) (f : LowpassFilter) :
    ((runAll f xs).1).alpha = f.alpha := by
  induction xs generalizing f with
  | nil => rfl
  | cons x xs ih =>
    show ((runAll (f.run x).1 xs).1).alpha = f.alpha
    rw [ih, run_alpha]

theorem runAll_length (xs : List ℚ) (f : LowpassFilter) :
    ((runAll f xs).2).length = xs.length := by
  induction xs generalizing f with
  | nil => rfl
  | cons x xs ih =>
    show ((f.run x).2 :: (runAll (f.run x).1 xs).2).length = xs.length + 1
    simp [ih]

theorem runAll_prev_bounds (xs : List ℚ) (f : LowpassFilter)
    (ha0 : 0 < f.alpha) (ha1 : f.alpha ≤ 1)
    (hp0 : -1 ≤ f.prev) (hp1 : f.prev ≤ 1)
    (hxs : ∀ x ∈ xs, -1 ≤ x ∧ x ≤ 1) :
    -1 ≤ ((runAll f xs).1).prev ∧ ((runAll f xs).1).prev ≤ 1 := by
  induction xs generalizing f with
  | nil => exact ⟨hp0, hp1⟩
  | cons x xs ih =>
    have hx := hxs x (by simp)
    have hb := run_prev_bounds f x ha0 ha1 hp0 hp1 hx.1 hx.2
    have ha := run_alpha f x
    show -1 ≤ ((runAll (f.run x).1 xs).1).prev ∧ _
    exact ih (f.run x).1 (ha ▸ ha0) (ha ▸ ha1) hb.1 hb.2
      fun y hy => hxs y (by simp [hy])

/-- Every state reachable with valid parameters and in-range inputs has
`alpha = mkAlpha pi sr c ∈ (0, 1]` and `prev ∈ [-1, 1]`. -/
theorem reachable_inv (pi sr c : ℚ) (f : LowpassFilter)
    (hpi : 0 < pi) (hc : 0 < c) (hn : c * 2 ≤ sr)
    (hf : Reachable pi sr c f) :
    f.alpha = mkAlpha pi sr c ∧ 0 < f.alpha ∧ f.alpha ≤ 1 ∧
      -1 ≤ f.prev ∧ f.prev ≤ 1 := by
  obtain ⟨f0, xs, hf0, hxs, hrun⟩ := hf
  have h0 := (new_eq_some_iff pi sr c f0).mp hf0
  have ha0 : 0 < f0.alpha := by rw [h0.2]; exact mkAlpha_pos pi sr c hpi hc hn
  have ha1 : f0.alpha ≤ 1 := by rw [h0.2]; exact mkAlpha_le_one pi sr c hpi hc hn
  have hp0 : -1 ≤ f0.prev := by rw [h0.2]; norm_num
  have hp1 : f0.prev ≤ 1 := by rw [h0.2]; norm_num
  have hb := runAll_prev_bounds xs f0 ha0 ha1 hp0 hp1 hxs
  have hav := runAll_alpha xs f0
  rw [hrun] at hb hav
  refine ⟨?_, ?_, ?_, hb.1, hb.2⟩
  · rw [hav, h0.2]
  · rw [hav]; exact ha0
  · rw [hav]; exact ha1

theorem runAll_outputs_bounded (xs : List ℚ) (f : LowpassFilter) :
    ∀ y ∈ (runAll f xs).2, -1 ≤ y ∧ y ≤ 1 := by
  induction xs generalizing f with
  | nil => simp [runAll]
  | cons x xs ih =>
    intro y hy
    have : y = (f.run x).2 ∨ y ∈ (runAll (f.run x).1 xs).2 := by
      simpa [runAll] using hy
    rcases this with h | h
    · rw [h, run_val]
      exact ⟨clamp_ge _, clamp_le _⟩
    · exact ih (f.run x).1 y h

/-- A concrete filter used as a witness input: the result of
`LowpassFilter::<f32>::new(4.0, 1.0)`. -/
def exampleFilter : LowpassFilter :=
  { alpha := mkAlpha f32_pi 4 1, prev := 0, next_is_first := true }

/-! ## Claim theorems -/

/-- C3: `LowpassFilter::new` panics (returns `none`) exactly when
`cutoff_frequency_hz * 2 > sample_rate_hz`; otherwise it returns the
filter with `alpha` computed from the stated formula, `prev = 0` and the
first-sample flag set.  There is no other failure mode. -/
theorem new_panics_iff_nyquist_violated (pi sr c : ℚ) :
    (sr < c * 2 → LowpassFilter.new pi sr c = none) ∧
    (c * 2 ≤ sr → LowpassFilter.new pi sr c =
      some { alpha := mkAlpha pi sr c, prev := 0, next_is_first := true }) :=
  ⟨fun h => (new_eq_none_iff pi sr c).mpr h, fun h => new_some pi sr c h⟩

theorem new_panics_iff_nyquist_violated_witness :
    LowpassFilter.new f32_pi 100 120 = none ∧
    LowpassFilter.new f32_pi 44100 120 =
      some { alpha := mkAlpha f32_pi 44100 120, prev := 0,
             next_is_first := true } :=
  ⟨(new_panics_iff_nyquist_violated f32_pi 100 120).1 (by norm_num),
   (new_panics_iff_nyquist_violated f32_pi 44100 120).2 (by norm_num)⟩

/-- C4: `run` never panics (it is a total function in the embedding; the
debug assertion is compiled out in release builds) and its result is
always in `[-1, 1]` thanks to the final clamp, whatever the input and the
state; consequently every output of a batch run is in `[-1, 1]`. -/
theorem run_always_bounded (f : LowpassFilter) (x : ℚ) (xs : List ℚ) :
    (-1 ≤ (f.run x).2 ∧ (f.run x).2 ≤ 1) ∧
      ∀ y ∈ (runAll f xs).2, -1 ≤ y ∧ y ≤ 1 :=
  ⟨by rw [run_val]; exact ⟨clamp_ge _, clamp_le _⟩,
   runAll_outputs_bounded xs f⟩

theorem run_always_bounded_witness :
    -1 ≤ (3/4 : ℚ) ∧ (3/4 : ℚ) ≤ 1 :=
  (run_always_bounded { alpha := 1, prev := 0, next_is_first := true }
    (3/4) [3/4]).2 (3/4)
    (by norm_num [runAll, LowpassFilter.run, LowpassFilter.step, clamp])

/-- C2 (amended): an empty buffer is a no-op for `lowpass_filter` and
`lowpass_filter_f64` (given parameters passing the Nyquist assertion):
zero iterations, buffer left empty.  The integer-width variants
`apply_lpf_*` instead panic on an empty buffer, because they assign
`data[0]` unconditionally. -/
theorem empty_buffer_behavior (sr c : ℚ) (h : c * 2 ≤ sr) :
    lowpass_filter [] sr c = some [] ∧
    lowpass_filter_f64 [] sr c = some [] ∧
    ∀ srn cn : ℕ,
      apply_lpf_i16_sp [] srn cn = none ∧
      apply_lpf_i32_sp [] srn cn = none ∧
      apply_lpf_i16_dp [] srn cn = none ∧
      apply_lpf_i32_dp [] srn cn = none := by
  refine ⟨?_, ?_, fun srn cn => ⟨rfl, rfl, rfl, rfl⟩⟩
  · simp [lowpass_filter, new_some _ _ _ h, runAll]
  · simp [lowpass_filter_f64, new_some _ _ _ h, runAll]

theorem empty_buffer_behavior_witness :
    lowpass_filter [] 44100 120 = some [] :=
  (empty_buffer_behavior 44100 120 (by norm_num)).1

/-- C2, counterexample to the claim as stated: `apply_lpf_i16_sp` on an
empty buffer does not return successfully — it panics (`none`), because
`data[0] = ...` indexes into the empty slice. -/
theorem empty_buffer_counterexample :
    apply_lpf_i16_sp ([] : List ℤ) 44100 120 = none := rfl

/-- C9: the integer-width batch variants perform no Nyquist check: for
every non-empty buffer and all `sample_rate_hz`, `cutoff_frequency_hz`
arguments — including Nyquist-violating ones — they return normally,
unlike `LowpassFilter::new`, which panics whenever
`sample_rate_hz < cutoff_frequency_hz * 2`. -/
theorem apply_lpf_no_nyquist_check (data : List ℤ) (h : data ≠ [])
    (sr c : ℕ) :
    ((apply_lpf_i16_sp data sr c).isSome = true ∧
     (apply_lpf_i32_sp data sr c).isSome = true ∧
     (apply_lpf_i16_dp data sr c).isSome = true ∧
     (apply_lpf_i32_dp data sr c).isSome = true) ∧
    ∀ pi : ℚ, (sr : ℚ) < (c : ℚ) * 2 →
      LowpassFilter.new pi (sr : ℚ) (c : ℚ) = none := by
  constructor
  · cases data with
    | nil => exact absurd rfl h
    | cons x xs =>
      exact ⟨rfl, rfl, rfl, rfl⟩
  · exact fun pi hpi => (new_eq_none_iff pi _ _).mpr hpi

theorem apply_lpf_no_nyquist_check_witness :
    (10 : ℚ) < (100 : ℚ) * 2 ∧
    (apply_lpf_i16_sp [5] 10 100).isSome = true ∧
    LowpassFilter.new f32_pi 10 100 = none :=
  ⟨by norm_num,
   (apply_lpf_no_nyquist_check [5] (by simp) 10 100).1.1,
   by
     have h := (apply_lpf_no_nyquist_check [5] (by simp) 10 100).2 f32_pi
       (by norm_num)
     simpa using h⟩

/-- C10: the default `apply` of `FirstOrderLowPassFilterTrait` always
panics with an index-out-of-bounds error — on empty input reading
`samples[0]` fails, otherwise writing `lp_samples[0]` into the
zero-length vector produced by `Vec::with_capacity` fails — so it never
returns a filtered result, for any parameters. -/
theorem traitApply_always_panics (pi : ℚ) (samples : List ℚ)
    (sr c : ℚ) :
    traitApply pi samples sr c = none := by
  cases samples with
  | nil => rfl
  | cons x xs => simp [traitApply, listSet]

/-- C1 (amended): for `LowpassFilter::run` the first output is
`alpha * x0`, the stored previous value becomes the raw input `x0`, and
the second output is `x0 + alpha * (x1 - x0)`; but the integer-width
batch variants such as `apply_lpf_i16_sp` seed the recurrence with the
truncated scaled first output `castToI16 (alpha * x0)` instead of the
raw `x0`. -/
theorem first_sample_rule (pi sr c x0 x1 : ℚ)
    (hpi : 0 < pi) (hc : 0 < c) (hn : c * 2 ≤ sr)
    (hx0l : -1 ≤ x0) (hx0r : x0 ≤ 1) (hx1l : -1 ≤ x1) (hx1r : x1 ≤ 1)
    (f : LowpassFilter) (hf : LowpassFilter.new pi sr c = some f) :
    (f.run x0).2 = f.alpha * x0 ∧
    ((f.run x0).1).prev = x0 ∧
    (((f.run x0).1).run x1).2 = x0 + f.alpha * (x1 - x0) ∧
    ∀ y0 y1 : ℤ, ∀ srn cn : ℕ,
      apply_lpf_i16_sp [y0, y1] srn cn =
        some [castToI16 (mkAlpha f32_pi srn cn * (y0 : ℚ)),
          castToI16 ((castToI16 (mkAlpha f32_pi srn cn * (y0 : ℚ)) : ℚ) +
            mkAlpha f32_pi srn cn *
              ((y1 : ℚ) -
                (castToI16 (mkAlpha f32_pi srn cn * (y0 : ℚ)) : ℚ)))] := by
  obtain ⟨-, rfl⟩ := (new_eq_some_iff pi sr c f).mp hf
  have ha0 := mkAlpha_pos pi sr c hpi hc hn
  have ha1 := mkAlpha_le_one pi sr c hpi hc hn
  refine ⟨?_, rfl, ?_, ?_⟩
  · show clamp (-1) 1 (x0 * mkAlpha pi sr c) = mkAlpha pi sr c * x0
    rw [clamp_eq_self _ (by nlinarith) (by nlinarith), mul_comm]
  · show clamp (-1) 1 (x0 + mkAlpha pi sr c * (x1 - x0)) =
      x0 + mkAlpha pi sr c * (x1 - x0)
    exact clamp_eq_self _ (by nlinarith) (by nlinarith)
  · intro y0 y1 srn cn
    rfl

theorem first_sample_rule_witness :
    (exampleFilter.run (1/2)).2 = exampleFilter.alpha * (1/2) :=
  (first_sample_rule f32_pi 4 1 (1/2) (1/4) (by norm_num [f32_pi])
    (by norm_num) (by norm_num) (by norm_num) (by norm_num) (by norm_num)
    (by norm_num) exampleFilter (new_some f32_pi 4 1 (by norm_num))).1

/-- C1, counterexample to the claim as stated: on
`apply_lpf_i16_sp([100, 100], 10, 5)` the code produces `[75, 93]`,
while the claimed first-sample rule (previous value seeded with the raw
input `x0 = 100`) predicts a second output of
`castToI16 (100 + alpha * (100 - 100)) = 100 ≠ 93`: the integer-width
variants seed with the scaled output, not the raw input. -/
theorem first_sample_rule_counterexample :
    apply_lpf_i16_sp [100, 100] 10 5 = some [75, 93] ∧
    castToI16 ((100 : ℚ) + mkAlpha f32_pi 10 5 * ((100 : ℚ) - (100 : ℚ)))
      = 100 ∧
    (93 : ℤ) ≠ 100 := by
  refine ⟨?_, ?_, by norm_num⟩
  · norm_num [apply_lpf_i16_sp, apply_lpf, lpfIntLoop, mkAlpha, f32_pi,
      castToI16, truncToInt]
  · norm_num [castToI16, truncToInt]

/-- C5: in every state reachable with valid parameters by feeding only
inputs in `[-1, 1]`, the pre-clamp value of `run` on an in-range input
already lies in `[-1, 1]`, so the final clamp returns its argument
unchanged. -/
theorem preclamp_never_truncates (pi sr c : ℚ) (f : LowpassFilter)
    (x : ℚ) (hpi : 0 < pi) (hc : 0 < c) (hn : c * 2 ≤ sr)
    (hreach : Reachable pi sr c f) (hx0 : -1 ≤ x) (hx1 : x ≤ 1) :
    (-1 ≤ (f.step x).2 ∧ (f.step x).2 ≤ 1) ∧
      f.run x = ((f.step x).1, (f.step x).2) := by
  obtain ⟨-, ha0, ha1, hp0, hp1⟩ := reachable_inv pi sr c f hpi hc hn hreach
  have hb := (step_bounds f x ha0 ha1 hp0 hp1 hx0 hx1).1
  refine ⟨hb, ?_⟩
  show ((f.step x).1, clamp (-1) 1 (f.step x).2) = _
  rw [clamp_eq_self _ hb.1 hb.2]

theorem preclamp_never_truncates_witness :
    exampleFilter.run (1/2) =
      ((exampleFilter.step (1/2)).1, (exampleFilter.step (1/2)).2) :=
  (preclamp_never_truncates f32_pi 4 1 exampleFilter (1/2)
    (by norm_num [f32_pi]) (by norm_num) (by norm_num)
    ⟨exampleFilter, [], new_some f32_pi 4 1 (by norm_num), by simp, rfl⟩
    (by norm_num) (by norm_num)).2

/-- C6: `reset` sets `prev = 0` and the first-sample flag, leaves
`alpha` unchanged, is idempotent, and resetting any filter whose `alpha`
matches that of a freshly constructed filter yields exactly that fresh filter,
hence identical outputs on every input sequence. -/
theorem reset_spec (pi sr c : ℚ) (f f0 : LowpassFilter) (xs : List ℚ)
    (hf0 : LowpassFilter.new pi sr c = some f0)
    (halpha : f.alpha = f0.alpha) :
    f.reset.prev = 0 ∧ f.reset.next_is_first = true ∧
    f.reset.alpha = f.alpha ∧ f.reset.reset = f.reset ∧
    f.reset = f0 ∧ (runAll f.reset xs).2 = (runAll f0 xs).2 := by
  obtain ⟨-, rfl⟩ := (new_eq_some_iff pi sr c f0).mp hf0
  have hr :
      f.reset = { alpha := mkAlpha pi sr c, prev := 0, next_is_first := true } := by
    cases f
    simp_all [LowpassFilter.reset]
  exact ⟨rfl, rfl, rfl, rfl, hr, by rw [hr]⟩

theorem reset_spec_witness :
    LowpassFilter.reset
        { alpha := mkAlpha f32_pi 4 1, prev := 1/2, next_is_first := false }
      = exampleFilter :=
  (reset_spec f32_pi 4 1
    { alpha := mkAlpha f32_pi 4 1, prev := 1/2, next_is_first := false }
    exampleFilter [] (new_some f32_pi 4 1 (by norm_num)) rfl).2.2.2.2.1

/-- C7: `lowpass_filter` and `lowpass_filter_f64` are equivalent to
constructing a fresh filter with the same parameters and calling `run`
on each element in forward order, writing results back in place; the
buffer length is unchanged. -/
theorem lowpass_filter_refines_run (samples : List ℚ) (sr c : ℚ)
    (f g : LowpassFilter)
    (hf : LowpassFilter.new f32_pi sr c = some f)
    (hg : LowpassFilter.new f64_pi sr c = some g) :
    lowpass_filter samples sr c = some ((runAll f samples).2) ∧
    lowpass_filter_f64 samples sr c = some ((runAll g samples).2) ∧
    ((runAll f samples).2).length = samples.length ∧
    ((runAll g samples).2).length = samples.length := by
  refine ⟨?_, ?_, runAll_length samples f, runAll_length samples g⟩
  · simp [lowpass_filter, hf]
  · simp [lowpass_filter_f64, hg]

theorem lowpass_filter_refines_run_witness :
    lowpass_filter [0, 1] 44100 120 =
      some ((runAll { alpha := mkAlpha f32_pi 44100 120, prev := 0,
                      next_is_first := true } [0, 1]).2) :=
  (lowpass_filter_refines_run [0, 1] 44100 120 _ _
    (new_some f32_pi 44100 120 (by norm_num))
    (new_some f64_pi 44100 120 (by norm_num))).1

/-- C8: with valid parameters satisfying the Nyquist precondition, the
constructed `alpha = dt / (rc + dt)` lies in `(0, 1]`, and `run` and
`reset` never change `alpha`, so the invariant holds in every reachable
state. -/
theorem alpha_invariant (pi sr c : ℚ) (hpi : 0 < pi) (hc : 0 < c)
    (hn : c * 2 ≤ sr) :
    (∀ f, LowpassFilter.new pi sr c = some f →
        f.alpha = mkAlpha pi sr c ∧ 0 < f.alpha ∧ f.alpha ≤ 1) ∧
    (∀ (g : LowpassFilter) (x : ℚ),
        ((g.run x).1).alpha = g.alpha ∧ (g.reset).alpha = g.alpha) ∧
    (∀ f, Reachable pi sr c f → 0 < f.alpha ∧ f.alpha ≤ 1) := by
  refine ⟨?_, ?_, ?_⟩
  · intro f hf
    obtain ⟨-, rfl⟩ := (new_eq_some_iff pi sr c f).mp hf
    exact ⟨rfl, mkAlpha_pos pi sr c hpi hc hn,
      mkAlpha_le_one pi sr c hpi hc hn⟩
  · exact fun g x => ⟨run_alpha g x, rfl⟩
  · intro f hf
    obtain ⟨-, h1, h2, -, -⟩ := reachable_inv pi sr c f hpi hc hn hf
    exact ⟨h1, h2⟩

theorem alpha_invariant_witness :
    0 < exampleFilter.alpha ∧ exampleFilter.alpha ≤ 1 :=
  ((alpha_invariant f32_pi 4 1 (by norm_num [f32_pi]) (by norm_num)
    (by norm_num)).1 exampleFilter (new_some f32_pi 4 1 (by norm_num))).2

end Lowpass
